import Mathlib

/-!
Verification of the TranspileBox client-side task-distribution pipeline
(`src/App.jsx`). The definitions below are a shallow embedding of the
state and effect logic of the main component: file intake filtering and
extension remapping (`handleFiles`), the dispatch queue and worker pool
(`processQueue`, `handleConvert`), the completion reconciler
(`handleWorkerMessage`), export assembly (`handleDownloadZip`), session
reset (`handleClear`) and record removal (`removeFile`).

JavaScript strings are modelled as Lean `String` with the JS operations
re-implemented over `String.data` (character lists); JS `null` fields are
`Option`; the JS number `activeWorkers` is `Int` (it is decremented).
-/

namespace TranspileBox

/-! ### JS string primitives used by the source -/

/-- JS `s.endsWith(pat)`: `pat` is a suffix of `s`. -/
def strEndsWith (s pat : String) : Bool :=
  decide (s.data.drop (s.data.length - pat.data.length) = pat.data)

/-- One step of JS substring search: does `pat` occur anywhere in `s`?
This models JS `s.includes(pat)`. -/
def hasSubL (pat : List Char) : List Char → Bool
  | [] => pat.isEmpty
  | c :: rest => pat.isPrefixOf (c :: rest) || hasSubL pat rest

/-- JS `s.includes(pat)` on strings. -/
def strIncludes (s pat : String) : Bool :=
  hasSubL pat.data s.data

/-- JS `s.replace(pat, repl)` with a **string** pattern: replaces only the
first occurrence of `pat` (or returns `s` unchanged when there is none). -/
def repFirstL (pat repl : List Char) : List Char → List Char
  | [] => if pat.isPrefixOf ([] : List Char) then repl else []
  | c :: rest =>
    if pat.isPrefixOf (c :: rest) then repl ++ (c :: rest).drop pat.length
    else c :: repFirstL pat repl rest

/-- JS `s.replace(pat, repl)` with a string pattern, on strings. -/
def strReplaceFirst (s pat repl : String) : String :=
  ⟨repFirstL pat.data repl.data s.data⟩

/-- JS `s.replace(/pat$/, repl)` with an end-anchored regex: replaces the
occurrence of `pat` at the end of `s`, if any. -/
def strReplaceEnd (s pat repl : String) : String :=
  if strEndsWith s pat then ⟨s.data.take (s.data.length - pat.data.length) ++ repl.data⟩
  else s

/-! ### File intake (`handleFiles`) -/

/-- The regex `/\.(ts|tsx|jsx|js)$/` of `handleFiles`: the name ends in one
of the four source extensions. -/
def matchesExt (name : String) : Bool :=
  strEndsWith name ".ts" || strEndsWith name ".tsx" ||
    strEndsWith name ".jsx" || strEndsWith name ".js"

/-- The intake filter predicate of `handleFiles`:
`f.name.match(/\.(ts|tsx|jsx|js)$/) && !f.name.includes('.d.ts')`. -/
def validFile (name : String) : Bool :=
  matchesExt name && !(strIncludes name ".d.ts")

/-- A raw candidate item handed to intake. `path` is
`file.webkitRelativePath || file.name`, resolved by the caller. -/
structure Item where
  name : String
  path : String
  content : String
  deriving DecidableEq

/-- `Array.from(fileList).filter(...)` in `handleFiles`. -/
def filterValid (items : List Item) : List Item :=
  items.filter (fun i => validFile i.name)

/-- The `newName` / `newPath` computation of `handleFiles`: the branch is
selected by `file.name.endsWith`, the name is rewritten with a string
`replace` (first occurrence) and the path with an end-anchored regex
`replace`. -/
def remap (name path : String) : String × String :=
  if strEndsWith name ".ts" then
    (strReplaceFirst name ".ts" ".js", strReplaceEnd path ".ts" ".js")
  else if strEndsWith name ".tsx" then
    (strReplaceFirst name ".tsx" ".js", strReplaceEnd path ".tsx" ".js")
  else if strEndsWith name ".jsx" then
    (strReplaceFirst name ".jsx" ".js", strReplaceEnd path ".jsx" ".js")
  else (name, path)

/-! ### Task records and coordinator state -/

/-- The per-file lifecycle statuses actually used by the source:
records are created `idle`, `handleConvert` marks them `pending`, and
`handleWorkerMessage` marks them `complete`. -/
inductive Status where
  | idle
  | pending
  | complete
  deriving DecidableEq

/-- A Task Record, mirroring the object pushed by `handleFiles`. -/
structure FileRec where
  id : Nat
  originalName : String
  newName : String
  originalPath : String
  newPath : String
  inputContent : String
  content : Option String
  status : Status
  error : Option String
  deriving DecidableEq

/-- A Worker Slot, mirroring `{ worker, busy, id }` plus the `currentId`
field set at dispatch time. The worker handle itself is the message
channel, modelled by the `sent` log of the state. -/
structure WorkerSlot where
  id : Nat
  busy : Bool
  currentId : Option Nat
  deriving DecidableEq

/-- An entry of `queueRef`: `{ id, content, filename }`. -/
structure QueueTask where
  id : Nat
  content : String
  filename : String
  deriving DecidableEq

/-- A worker result message `{ success, id, content }` or
`{ success, id, error }` (see `WORKER_CODE`). -/
inductive WOutcome where
  | success (content : String)
  | failure (error : String)
  deriving DecidableEq

/-- A delivered worker message, keyed by task id. -/
structure ResultMsg where
  id : Nat
  outcome : WOutcome
  deriving DecidableEq

/-- The coordinator state: React state (`files`, `progress`,
`isProcessing`, `activeWorkers`) together with the mutable refs
(`queueRef`, `workersRef`). `sent` is the observation log of
`worker.postMessage` calls, in order. -/
structure AppState where
  files : List FileRec
  queue : List QueueTask
  workers : List WorkerSlot
  current : Nat
  total : Nat
  isProcessing : Bool
  activeWorkers : Int
  sent : List (Nat × QueueTask)
  deriving DecidableEq

/-- `initWorkers`: `concurrency` fresh non-busy slots. -/
def initWorkersL (n : Nat) : List WorkerSlot :=
  (List.range n).map (fun i => { id := i, busy := false, currentId := none })

/-- `workersRef.current.find(w => !w.busy)` followed by the in-place
mutation `busy = true; currentId = task.id`: returns the updated slot
list and the chosen slot's id, or `none` when every slot is busy. -/
def assignFree : List WorkerSlot → Nat → Option (Nat × List WorkerSlot)
  | [], _ => none
  | w :: ws, tid =>
    if w.busy then
      match assignFree ws tid with
      | none => none
      | some p => some (p.1, w :: p.2)
    else some (w.id, { w with busy := true, currentId := some tid } :: ws)

/-- `workersRef.current.find(w => w.busy && w.currentId === id)` followed
by `busy = false; currentId = null`: frees the first matching slot. -/
def freeSlot : List WorkerSlot → Nat → Option (List WorkerSlot)
  | [], _ => none
  | w :: ws, tid =>
    if w.busy = true ∧ w.currentId = some tid then
      some ({ w with busy := false, currentId := none } :: ws)
    else
      match freeSlot ws tid with
      | none => none
      | some ws2 => some (w :: ws2)

/-- The `setFiles(prev => prev.map(...))` update of `handleWorkerMessage`
applied to one record. -/
def applyResult (msg : ResultMsg) (f : FileRec) : FileRec :=
  if f.id = msg.id then
    { f with
      content := match msg.outcome with
        | WOutcome.success c => some c
        | WOutcome.failure _ => none,
      error := match msg.outcome with
        | WOutcome.success _ => none
        | WOutcome.failure e => some e,
      status := Status.complete }
  else f

/-- Body of `processQueue`, with a fuel argument bounding the recursion
depth; the recursion pops one queue entry per call, so fuel equal to the
queue length (supplied by `processQueue`) always suffices, and the `0`
fuel fallback is unreachable from `processQueue`. -/
def pqStep : Nat → AppState → AppState
  | fuel, s =>
    match s.queue with
    | [] =>
      if s.workers.all (fun w => !w.busy) then { s with isProcessing := false }
      else s
    | t :: rest =>
      match assignFree s.workers t.id with
      | none => s
      | some p =>
        match fuel with
        | 0 => s
        | f + 1 =>
          pqStep f
            { s with
              queue := rest, workers := p.2,
              activeWorkers := s.activeWorkers + 1,
              sent := s.sent ++ [(p.1, t)] }

/-- `processQueue`: drain the queue head into free slots; when the queue
is empty and every slot is free, clear `isProcessing`. -/
def processQueue (s : AppState) : AppState :=
  pqStep s.queue.length s

/-- `handleConvert`: enqueue every `idle` record (marking it `pending`),
grow `progress.total`, set `isProcessing`, then run the scheduler. -/
def handleConvert (s : AppState) : AppState :=
  let idleFiles := s.files.filter (fun f => decide (f.status = Status.idle))
  if idleFiles.length = 0 then s
  else
    processQueue
      { s with
        isProcessing := true,
        total := s.total + idleFiles.length,
        queue := s.queue ++ idleFiles.map (fun f =>
          { id := f.id, content := f.inputContent, filename := f.originalName }),
        files := s.files.map (fun f =>
          if f.status = Status.idle then { f with status := Status.pending } else f) }

/-- `handleWorkerMessage`: fold a worker result into the state — update
the matching record, free the slot holding the task id (if any),
increment `progress.current`, and re-run the scheduler. -/
def handleWorkerMessage (msg : ResultMsg) (s : AppState) : AppState :=
  let files2 := s.files.map (applyResult msg)
  match freeSlot s.workers msg.id with
  | some ws =>
    processQueue
      { s with
        files := files2, workers := ws,
        activeWorkers := s.activeWorkers - 1, current := s.current + 1 }
  | none =>
    processQueue { s with files := files2, current := s.current + 1 }

/-- `handleClear`: drop the queue, terminate and re-create the pool,
clear the registry and reset the progress counters. The `sent` history
log is kept, being an observation rather than program state. -/
def handleClear (s : AppState) (n : Nat) : AppState :=
  { files := [], queue := [], workers := initWorkersL n,
    current := 0, total := 0, isProcessing := false,
    activeWorkers := 0, sent := s.sent }

/-- `removeFile`: `setFiles(prev => prev.filter(f => f.id !== id))`. -/
def removeFile (idr : Nat) (s : AppState) : AppState :=
  { s with files := s.files.filter (fun f => decide (f.id ≠ idr)) }

/-! ### Export (`handleDownloadZip`) -/

/-- JS truthiness of a nullable string field: `null` and `""` are falsy. -/
def truthyStr : Option String → Bool
  | none => false
  | some s => decide (s ≠ "")

/-- The archive entries: `files.forEach(...; if (!file.error && file.content)
zip.file(file.newPath, file.content))`. -/
def zipEntries (files : List FileRec) : List (String × String) :=
  (files.filter (fun f => !truthyStr f.error && truthyStr f.content)).map
    (fun f => (f.newPath, f.content.getD ""))

/-- `handleDownloadZip`: an archive of the eligible entries, or the toast
`"No valid files to zip"` when `addedCount === 0`. -/
def handleDownloadZip (files : List FileRec) : Except String (List (String × String)) :=
  if zipEntries files = [] then Except.error "No valid files to zip"
  else Except.ok (zipEntries files)

/-- Number of busy slots. -/
def busyCount (ws : List WorkerSlot) : Nat :=
  (ws.filter (fun w => w.busy)).length

/-- Number of records with a given status. -/
def countStatus (fs : List FileRec) (v : Status) : Nat :=
  (fs.filter (fun f => decide (f.status = v))).length

/-- The mutually-exclusive completion outcome of a record: exactly one of
`content` / `error` is non-null. -/
def completeExcl (f : FileRec) : Bool :=
  (f.content.isSome && f.error.isNone) || (f.content.isNone && f.error.isSome)

/-- A convenient initial coordinator state: the React initial state with a
given registry (as produced by intake) and a fresh pool of `n` workers. -/
def initState (files : List FileRec) (n : Nat) : AppState :=
  { files := files, queue := [], workers := initWorkersL n,
    current := 0, total := 0, isProcessing := false,
    activeWorkers := 0, sent := [] }

/-! ### Helper lemmas about the worker-slot operations -/

theorem busyCount_nil : busyCount [] = 0 := rfl

theorem busyCount_cons (w : WorkerSlot) (ws : List WorkerSlot) :
    busyCount (w :: ws) = (if w.busy then 1 else 0) + busyCount ws := by
  by_cases hb : w.busy <;> simp [busyCount, List.filter_cons, hb, Nat.add_comm]

theorem assignFree_none_iff (ws : List WorkerSlot) (tid : Nat) :
    assignFree ws tid = none ↔ ws.all (fun w => w.busy) = true := by
  induction ws with
  | nil => simp [assignFree]
  | cons w rest ih =>
    by_cases hb : w.busy
    · cases hr : assignFree rest tid with
      | none => simp [assignFree, hb, hr, ← ih, hr]
      | some p => simp [assignFree, hb, hr, ← ih, hr]
    · simp [assignFree, hb]

theorem assignFree_busyCount (ws : List WorkerSlot) (tid : Nat) (p : Nat × List WorkerSlot)
    (h : assignFree ws tid = some p) : busyCount p.2 = busyCount ws + 1 := by
  induction ws generalizing p with
  | nil => simp [assignFree] at h
  | cons w rest ih =>
    by_cases hb : w.busy
    · cases hr : assignFree rest tid with
      | none => simp [assignFree, hb, hr] at h
      | some q =>
        simp only [assignFree, hb, if_true, hr] at h
        cases h
        have h2 := ih q hr
        simp only [busyCount_cons, hb, if_true, h2]
        omega
    · simp only [assignFree, hb, if_false] at h
      cases h
      simp only [busyCount_cons, hb, if_false]
      simp
      omega

theorem freeSlot_none_iff (ws : List WorkerSlot) (tid : Nat) :
    freeSlot ws tid = none ↔ ∀ w ∈ ws, ¬(w.busy = true ∧ w.currentId = some tid) := by
  induction ws with
  | nil => simp [freeSlot]
  | cons w rest ih =>
    by_cases hb : w.busy = true ∧ w.currentId = some tid
    · simp only [freeSlot, if_pos hb]
      simp only [List.mem_cons]
      constructor
      · intro hcontra
        exact absurd hcontra (by simp)
      · intro hall
        exact absurd hb (hall w (Or.inl rfl))
    · cases hr : freeSlot rest tid with
      | none =>
        simp only [freeSlot, if_neg hb, hr]
        simp only [List.mem_cons]
        constructor
        · intro _ w2 hw2
          rcases hw2 with rfl | hw2
          · exact hb
          · exact (ih.mp hr) w2 hw2
        · intro _
          trivial
      | some ws2 =>
        simp only [freeSlot, if_neg hb, hr]
        simp only [List.mem_cons]
        constructor
        · intro hcontra
          exact absurd hcontra (by simp)
        · intro hall
          have h2 := ih.mpr (fun w2 hw2 => hall w2 (Or.inr hw2))
          rw [h2] at hr
          exact absurd hr (by simp)

theorem freeSlot_busyCount (ws : List WorkerSlot) (tid : Nat) (ws2 : List WorkerSlot)
    (h : freeSlot ws tid = some ws2) : busyCount ws = busyCount ws2 + 1 := by
  induction ws generalizing ws2 with
  | nil => simp [freeSlot] at h
  | cons w rest ih =>
    by_cases hb : w.busy = true ∧ w.currentId = some tid
    · simp only [freeSlot, if_pos hb] at h
      cases h
      simp only [busyCount_cons, hb.1, if_true, if_false]
      simp
      omega
    · simp only [freeSlot, if_neg hb] at h
      cases hr : freeSlot rest tid with
      | none => rw [hr] at h; cases h
      | some q =>
        rw [hr] at h
        cases h
        have h2 := ih q hr
        simp only [busyCount_cons, h2]
        omega

theorem initWorkersL_not_busy (n : Nat) : ∀ w ∈ initWorkersL n, w.busy = false := by
  intro w hw
  simp only [initWorkersL, List.mem_map, List.mem_range] at hw
  rcases hw with ⟨i, _, rfl⟩
  rfl

theorem freeSlot_initWorkersL (n : Nat) (tid : Nat) : freeSlot (initWorkersL n) tid = none := by
  rw [freeSlot_none_iff]
  intro w hw hcontra
  rw [initWorkersL_not_busy n w hw] at hcontra
  exact absurd hcontra.1 (by simp)

/-! ### Helper lemmas about the scheduler loop -/

theorem pqStep_proj (fuel : Nat) (s : AppState) :
    (pqStep fuel s).files = s.files ∧ (pqStep fuel s).current = s.current ∧
      (pqStep fuel s).total = s.total := by
  induction fuel generalizing s with
  | zero =>
    rw [pqStep]
    cases hq : s.queue with
    | nil => by_cases h : s.workers.all (fun w => !w.busy) = true <;> simp [h]
    | cons t rest =>
      cases h : assignFree s.workers t.id with
      | none => simp [h]
      | some p => simp [h]
  | succ f ih =>
    rw [pqStep]
    cases hq : s.queue with
    | nil => by_cases h : s.workers.all (fun w => !w.busy) = true <;> simp [h]
    | cons t rest =>
      cases h : assignFree s.workers t.id with
      | none => simp [h]
      | some p => simp [h, ih]

theorem pqStep_files (fuel : Nat) (s : AppState) : (pqStep fuel s).files = s.files :=
  (pqStep_proj fuel s).1

theorem pqStep_current (fuel : Nat) (s : AppState) : (pqStep fuel s).current = s.current :=
  (pqStep_proj fuel s).2.1

theorem pqStep_total (fuel : Nat) (s : AppState) : (pqStep fuel s).total = s.total :=
  (pqStep_proj fuel s).2.2

theorem pqStep_set (fuel : Nat) (s : AppState) (F : List FileRec) (c : Nat) :
    pqStep fuel { s with files := F, current := c } =
      { pqStep fuel s with files := F, current := c } := by
  induction fuel generalizing s with
  | zero =>
    rw [pqStep, pqStep]
    cases hq : s.queue with
    | nil => by_cases h : s.workers.all (fun w => !w.busy) = true <;> simp [h, hq]
    | cons t rest =>
      cases h : assignFree s.workers t.id with
      | none => simp [h, hq]
      | some p => simp [h, hq]
  | succ f ih =>
    rw [pqStep, pqStep]
    cases hq : s.queue with
    | nil => by_cases h : s.workers.all (fun w => !w.busy) = true <;> simp [h, hq]
    | cons t rest =>
      cases h : assignFree s.workers t.id with
      | none => simp [h, hq]
      | some p =>
        simp only [h, hq]
        have h3 := ih
          { s with
            queue := rest, workers := p.2,
            activeWorkers := s.activeWorkers + 1,
            sent := s.sent ++ [(p.1, t)] }
        simpa using h3

/-- The stable states the scheduler loop returns: either the queue has
drained (and `isProcessing` was cleared whenever every slot is free), or
work remains but every slot is busy. -/
def pqDone (s : AppState) : Prop :=
  (s.queue = [] ∧ (s.workers.all (fun w => !w.busy) = true → s.isProcessing = false)) ∨
    (s.queue ≠ [] ∧ s.workers.all (fun w => w.busy) = true)

theorem pqStep_nil_free (fuel : Nat) (s : AppState) (hq : s.queue = [])
    (hfree : s.workers.all (fun w => !w.busy) = true) :
    pqStep fuel s = { s with isProcessing := false } := by
  rw [pqStep]
  simp [hq, hfree]

theorem pqStep_nil_stuck (fuel : Nat) (s : AppState) (hq : s.queue = [])
    (hfree : ¬s.workers.all (fun w => !w.busy) = true) :
    pqStep fuel s = s := by
  rw [pqStep]
  simp [hq, hfree]

theorem pqStep_cons_stuck (fuel : Nat) (s : AppState) (t : QueueTask) (rest : List QueueTask)
    (hq : s.queue = t :: rest) (ha : assignFree s.workers t.id = none) :
    pqStep fuel s = s := by
  rw [pqStep]
  simp [hq, ha]

theorem pqStep_done (fuel : Nat) (s : AppState) (h : s.queue.length ≤ fuel) :
    pqDone (pqStep fuel s) := by
  induction fuel generalizing s with
  | zero =>
    cases hq : s.queue with
    | nil =>
      by_cases hfree : s.workers.all (fun w => !w.busy) = true
      · rw [pqStep_nil_free 0 s hq hfree]
        exact Or.inl ⟨hq, fun _ => rfl⟩
      · rw [pqStep_nil_stuck 0 s hq hfree]
        exact Or.inl ⟨hq, fun hc => absurd hc hfree⟩
    | cons t rest =>
      rw [hq] at h
      simp at h
  | succ f ih =>
    cases hq : s.queue with
    | nil =>
      by_cases hfree : s.workers.all (fun w => !w.busy) = true
      · rw [pqStep_nil_free (f + 1) s hq hfree]
        exact Or.inl ⟨hq, fun _ => rfl⟩
      · rw [pqStep_nil_stuck (f + 1) s hq hfree]
        exact Or.inl ⟨hq, fun hc => absurd hc hfree⟩
    | cons t rest =>
      cases ha : assignFree s.workers t.id with
      | none =>
        rw [pqStep_cons_stuck (f + 1) s t rest hq ha]
        exact Or.inr ⟨by simp [hq], (assignFree_none_iff s.workers t.id).mp ha⟩
      | some p =>
        have hlen : rest.length ≤ f := by
          rw [hq] at h
          simpa using h
        have hred : pqStep (f + 1) s = pqStep f
            { s with
              queue := rest, workers := p.2,
              activeWorkers := s.activeWorkers + 1,
              sent := s.sent ++ [(p.1, t)] } := by
          rw [pqStep]
          simp [hq, ha]
        rw [hred]
        exact ih _ hlen

theorem isProcessing_set_self (s : AppState) (h : s.isProcessing = false) :
    { s with isProcessing := false } = s := by
  cases s
  simp only at h
  simp [h]

theorem processQueue_of_done (s : AppState) (h : pqDone s) : processQueue s = s := by
  rcases h with ⟨hq, hp⟩ | ⟨hq, hbusy⟩
  · by_cases hfree : s.workers.all (fun w => !w.busy) = true
    · rw [processQueue, pqStep_nil_free _ s hq hfree]
      exact isProcessing_set_self s (hp hfree)
    · rw [processQueue, pqStep_nil_stuck _ s hq hfree]
  · cases hql : s.queue with
    | nil => exact absurd hql hq
    | cons t rest =>
      rw [processQueue,
        pqStep_cons_stuck _ s t rest hql ((assignFree_none_iff s.workers t.id).mpr hbusy)]

theorem processQueue_done (s : AppState) : pqDone (processQueue s) :=
  pqStep_done s.queue.length s (Nat.le_refl _)

theorem applyResult_idem (msg : ResultMsg) (f : FileRec) :
    applyResult msg (applyResult msg f) = applyResult msg f := by
  cases msg with
  | mk i outc =>
    cases outc <;> by_cases h : f.id = i <;> simp [applyResult, h]

/-- The C1-style pool invariant actually maintained by the code: the
number of busy slots equals the `activeWorkers` counter. -/
def busyInv (s : AppState) : Prop :=
  (busyCount s.workers : Int) = s.activeWorkers

theorem pqStep_cons_assign (fuel : Nat) (s : AppState) (t : QueueTask) (rest : List QueueTask)
    (p : Nat × List WorkerSlot) (hq : s.queue = t :: rest)
    (ha : assignFree s.workers t.id = some p) :
    pqStep (fuel + 1) s = pqStep fuel
      { s with
        queue := rest, workers := p.2,
        activeWorkers := s.activeWorkers + 1,
        sent := s.sent ++ [(p.1, t)] } := by
  rw [pqStep]
  simp [hq, ha]

theorem pqStep_cons_assign_zero (s : AppState) (t : QueueTask) (rest : List QueueTask)
    (p : Nat × List WorkerSlot) (hq : s.queue = t :: rest)
    (ha : assignFree s.workers t.id = some p) :
    pqStep 0 s = s := by
  rw [pqStep]
  simp [hq, ha]

theorem pqStep_busyInv (fuel : Nat) (s : AppState) (h : busyInv s) :
    busyInv (pqStep fuel s) := by
  induction fuel generalizing s with
  | zero =>
    cases hq : s.queue with
    | nil =>
      by_cases hfree : s.workers.all (fun w => !w.busy) = true
      · rw [pqStep_nil_free 0 s hq hfree]
        exact h
      · rw [pqStep_nil_stuck 0 s hq hfree]
        exact h
    | cons t rest =>
      cases ha : assignFree s.workers t.id with
      | none =>
        rw [pqStep_cons_stuck 0 s t rest hq ha]
        exact h
      | some p =>
        rw [pqStep_cons_assign_zero s t rest p hq ha]
        exact h
  | succ f ih =>
    cases hq : s.queue with
    | nil =>
      by_cases hfree : s.workers.all (fun w => !w.busy) = true
      · rw [pqStep_nil_free (f + 1) s hq hfree]
        exact h
      · rw [pqStep_nil_stuck (f + 1) s hq hfree]
        exact h
    | cons t rest =>
      cases ha : assignFree s.workers t.id with
      | none =>
        rw [pqStep_cons_stuck (f + 1) s t rest hq ha]
        exact h
      | some p =>
        rw [pqStep_cons_assign f s t rest p hq ha]
        apply ih
        show (busyCount p.2 : Int) = s.activeWorkers + 1
        rw [assignFree_busyCount s.workers t.id p ha]
        rw [busyInv] at h
        push_cast
        omega

theorem pqStep_busy_mono (fuel : Nat) (s : AppState) :
    busyCount s.workers ≤ busyCount (pqStep fuel s).workers := by
  induction fuel generalizing s with
  | zero =>
    cases hq : s.queue with
    | nil =>
      by_cases hfree : s.workers.all (fun w => !w.busy) = true
      · rw [pqStep_nil_free 0 s hq hfree]
      · rw [pqStep_nil_stuck 0 s hq hfree]
    | cons t rest =>
      cases ha : assignFree s.workers t.id with
      | none => rw [pqStep_cons_stuck 0 s t rest hq ha]
      | some p => rw [pqStep_cons_assign_zero s t rest p hq ha]
  | succ f ih =>
    cases hq : s.queue with
    | nil =>
      by_cases hfree : s.workers.all (fun w => !w.busy) = true
      · rw [pqStep_nil_free (f + 1) s hq hfree]
      · rw [pqStep_nil_stuck (f + 1) s hq hfree]
    | cons t rest =>
      cases ha : assignFree s.workers t.id with
      | none => rw [pqStep_cons_stuck (f + 1) s t rest hq ha]
      | some p =>
        rw [pqStep_cons_assign f s t rest p hq ha]
        have h1 := assignFree_busyCount s.workers t.id p ha
        have h2 := ih
          { s with
            queue := rest, workers := p.2,
            activeWorkers := s.activeWorkers + 1,
            sent := s.sent ++ [(p.1, t)] }
        simp only at h2
        omega

/-! ### Helper lemmas about the string primitives -/

theorem strEndsWith_iff (s pat : String) : strEndsWith s pat = true ↔ pat.data <:+ s.data := by
  rw [strEndsWith, decide_eq_true_eq, List.suffix_iff_eq_drop]
  exact ⟨fun h => h.symm, fun h => h.symm⟩

theorem endsWith_excl (s p q : String) (h1 : strEndsWith s p = true)
    (h2 : strEndsWith s q = true) : p.data <:+ q.data ∨ q.data <:+ p.data :=
  List.suffix_or_suffix_of_suffix ((strEndsWith_iff s p).mp h1) ((strEndsWith_iff s q).mp h2)

theorem hasSubL_iff (pat l : List Char) :
    hasSubL pat l = true ↔ ∃ pre suf, l = pre ++ pat ++ suf := by
  induction l with
  | nil =>
    simp only [hasSubL, List.isEmpty_iff]
    constructor
    · intro h
      exact ⟨[], [], by simp [h]⟩
    · rintro ⟨pre, suf, heq⟩
      have h1 : pre ++ pat ++ suf = [] := heq.symm
      rcases List.append_eq_nil.mp (List.append_eq_nil.mp h1).1 with ⟨_, h2⟩
      exact h2
  | cons c rest ih =>
    simp only [hasSubL, Bool.or_eq_true, List.isPrefixOf_iff_prefix]
    constructor
    · rintro (⟨t, ht⟩ | hrec)
      · exact ⟨[], t, by simp [← ht]⟩
      · rcases ih.mp hrec with ⟨pre, suf, heq⟩
        exact ⟨c :: pre, suf, by simp [heq]⟩
    · rintro ⟨pre, suf, heq⟩
      cases pre with
      | nil =>
        left
        exact ⟨suf, by simpa using heq.symm⟩
      | cons c2 pre2 =>
        right
        have h1 : c = c2 ∧ rest = pre2 ++ pat ++ suf := by
          simpa using heq
        exact ih.mpr ⟨pre2, suf, h1.2⟩

theorem strIncludes_iff (s pat : String) :
    strIncludes s pat = true ↔ ∃ pre suf, s.data = pre ++ pat.data ++ suf := by
  rw [strIncludes]
  exact hasSubL_iff pat.data s.data

/-- When `pat` occurs in `s` only as its final suffix, replacing the first
occurrence is the same as replacing the final one. -/
theorem repFirstL_suffix_unique (pat repl : List Char) (hne : pat ≠ []) :
    ∀ s : List Char, pat <:+ s → hasSubL pat s.dropLast = false →
      repFirstL pat repl s = s.take (s.length - pat.length) ++ repl := by
  intro s
  induction s with
  | nil =>
    intro hsuf _
    exact absurd (List.suffix_nil.mp hsuf) hne
  | cons c rest ih =>
    intro hsuf huniq
    by_cases hp : pat.isPrefixOf (c :: rest) = true
    · have hpre : pat <+: c :: rest := List.isPrefixOf_iff_prefix.mp hp
      have hlen : pat.length = (c :: rest).length := by
        by_contra hne2
        have hlt : pat.length < (c :: rest).length :=
          Nat.lt_of_le_of_ne hpre.length_le hne2
        have hpre2 : pat <+: (c :: rest).dropLast := by
          rw [List.dropLast_eq_take, List.prefix_take_iff]
          exact ⟨hpre, by omega⟩
        have hsub : hasSubL pat ((c :: rest).dropLast) = true := by
          cases hd : (c :: rest).dropLast with
          | nil =>
            rw [hd] at hpre2
            exact absurd (List.prefix_nil.mp hpre2) hne
          | cons d ds =>
            rw [hd] at hpre2
            simp only [hasSubL, Bool.or_eq_true, List.isPrefixOf_iff_prefix]
            exact Or.inl hpre2
        rw [hsub] at huniq
        exact absurd huniq (by simp)
      have hpat : pat = c :: rest := List.prefix_iff_eq_take.mp hpre |>.trans
        (by rw [hlen]; exact List.take_length _)
      rw [repFirstL, if_pos hp, hpat]
      simp
    · have hns : pat ≠ c :: rest := fun hcontra => by
        rw [hcontra] at hp
        exact hp (List.isPrefixOf_iff_prefix.mpr (List.prefix_refl _))
      have hsuf2 : pat <:+ rest := by
        rcases List.suffix_cons_iff.mp hsuf with hcontra | h2
        · exact absurd hcontra hns
        · exact h2
      have hrlen : 1 ≤ pat.length := by
        cases pat with
        | nil => exact absurd rfl hne
        | cons a b => simp
      have hrest : rest ≠ [] := by
        intro hcontra
        rw [hcontra] at hsuf2
        exact absurd (List.suffix_nil.mp hsuf2) hne
      have huniq2 : hasSubL pat rest.dropLast = false := by
        rw [List.dropLast_cons_of_ne_nil hrest] at huniq
        by_contra hcontra
        have h3 : hasSubL pat rest.dropLast = true := by
          cases h4 : hasSubL pat rest.dropLast with
          | false => exact absurd h4 hcontra
          | true => rfl
        simp only [hasSubL, h3, Bool.or_true] at huniq
        exact absurd huniq (by simp)
      have ihr := ih hsuf2 huniq2
      rw [repFirstL, if_neg (by simp [hp]), ihr]
      have hle : pat.length ≤ rest.length := hsuf2.length_le
      have harith : (c :: rest).length - pat.length = (rest.length - pat.length) + 1 := by
        simp only [List.length_cons]
        omega
      rw [harith, List.take_succ_cons]
      simp

theorem strReplaceEnd_spec (s pat repl : String) (h : strEndsWith s pat = true) :
    (strReplaceEnd s pat repl).data =
      s.data.take (s.data.length - pat.data.length) ++ repl.data := by
  rw [strReplaceEnd, if_pos h]

theorem strReplaceFirst_suffix_unique (s pat repl : String) (hne : pat.data ≠ [])
    (hsuf : strEndsWith s pat = true) (huniq : hasSubL pat.data s.data.dropLast = false) :
    (strReplaceFirst s pat repl).data =
      s.data.take (s.data.length - pat.data.length) ++ repl.data := by
  rw [strReplaceFirst]
  exact repFirstL_suffix_unique pat.data repl.data hne s.data
    ((strEndsWith_iff s pat).mp hsuf) huniq

/-! ### Helper lemmas about the reconciler -/

theorem handleWorkerMessage_eq_some (msg : ResultMsg) (s : AppState) (ws : List WorkerSlot)
    (hf : freeSlot s.workers msg.id = some ws) :
    handleWorkerMessage msg s = processQueue
      { s with
        files := s.files.map (applyResult msg), workers := ws,
        activeWorkers := s.activeWorkers - 1, current := s.current + 1 } := by
  simp only [handleWorkerMessage, hf]

theorem handleWorkerMessage_eq_none (msg : ResultMsg) (s : AppState)
    (hf : freeSlot s.workers msg.id = none) :
    handleWorkerMessage msg s = processQueue
      { s with files := s.files.map (applyResult msg), current := s.current + 1 } := by
  simp only [handleWorkerMessage, hf]

theorem handleWorkerMessage_files (msg : ResultMsg) (s : AppState) :
    (handleWorkerMessage msg s).files = s.files.map (applyResult msg) := by
  cases hf : freeSlot s.workers msg.id with
  | some ws =>
    rw [handleWorkerMessage_eq_some msg s ws hf, processQueue, pqStep_files]
  | none =>
    rw [handleWorkerMessage_eq_none msg s hf, processQueue, pqStep_files]

theorem handleWorkerMessage_current (msg : ResultMsg) (s : AppState) :
    (handleWorkerMessage msg s).current = s.current + 1 := by
  cases hf : freeSlot s.workers msg.id with
  | some ws =>
    rw [handleWorkerMessage_eq_some msg s ws hf, processQueue, pqStep_current]
  | none =>
    rw [handleWorkerMessage_eq_none msg s hf, processQueue, pqStep_current]

theorem handleWorkerMessage_done (msg : ResultMsg) (s : AppState) :
    pqDone (handleWorkerMessage msg s) := by
  cases hf : freeSlot s.workers msg.id with
  | some ws =>
    rw [handleWorkerMessage_eq_some msg s ws hf]
    exact processQueue_done _
  | none =>
    rw [handleWorkerMessage_eq_none msg s hf]
    exact processQueue_done _

/-! ### Claim C7: completion reconciliation -/

/-- Claim C7 (confirmed): delivering a worker result marks the matching
Task Record `complete`, with `outputText = result, error = null` on
success and `outputText = null, error = description` on failure; under
the inductive invariant, every `complete` record has exactly one of
`outputText` / `error` non-null. -/
theorem reconciler_complete_exclusive (s : AppState) (msg : ResultMsg)
    (hinv : ∀ f ∈ s.files, f.status = Status.complete → completeExcl f = true) :
    (∀ f2 ∈ (handleWorkerMessage msg s).files, f2.id = msg.id →
      f2.status = Status.complete ∧ completeExcl f2 = true ∧
      (∀ c, msg.outcome = WOutcome.success c → f2.content = some c ∧ f2.error = none) ∧
      (∀ e, msg.outcome = WOutcome.failure e → f2.content = none ∧ f2.error = some e)) ∧
    (∀ f2 ∈ (handleWorkerMessage msg s).files, f2.status = Status.complete →
      completeExcl f2 = true) := by
  constructor
  · intro f2 hf2 hid2
    rw [handleWorkerMessage_files] at hf2
    rcases List.mem_map.mp hf2 with ⟨f, hfm, rfl⟩
    by_cases hid : f.id = msg.id
    · rw [applyResult, if_pos hid]
      cases msg.outcome with
      | success c =>
        refine ⟨rfl, by rw [completeExcl]; simp, ?_, ?_⟩
        · intro c2 hc2
          have : c = c2 := by
            cases hc2
            rfl
          exact ⟨by simp [this], rfl⟩
        · intro e2 he2
          cases he2
      | failure e =>
        refine ⟨rfl, by rw [completeExcl]; simp, ?_, ?_⟩
        · intro c2 hc2
          cases hc2
        · intro e2 he2
          have : e = e2 := by
            cases he2
            rfl
          exact ⟨rfl, by simp [this]⟩
    · rw [applyResult, if_neg hid] at hid2
      exact absurd hid2 hid
  · intro f2 hf2 hst
    rw [handleWorkerMessage_files] at hf2
    rcases List.mem_map.mp hf2 with ⟨f, hfm, rfl⟩
    by_cases hid : f.id = msg.id
    · rw [applyResult, if_pos hid]
      cases msg.outcome with
      | success c => rw [completeExcl]; simp
      | failure e => rw [completeExcl]; simp
    · rw [applyResult, if_neg hid] at hst ⊢
      exact hinv f hfm hst

/-- Claim C7 witness: the record completed by a concrete successful
delivery satisfies the exclusivity property, through the theorem. -/
theorem reconciler_complete_exclusive_witness :
    completeExcl
      (⟨1, "a.ts", "a.js", "a.ts", "a.js", "x", some "out", Status.complete, none⟩ : FileRec) =
      true :=
  (reconciler_complete_exclusive
    (initState
      [⟨1, "a.ts", "a.js", "a.ts", "a.js", "x", none, Status.pending, none⟩,
       ⟨2, "b.ts", "b.js", "b.ts", "b.js", "y", none, Status.pending, none⟩] 2)
    ⟨1, WOutcome.success "out"⟩ (by decide)).2
    ⟨1, "a.ts", "a.js", "a.ts", "a.js", "x", some "out", Status.complete, none⟩
    (by decide) (by decide)

/-! ### Claim C1: scheduler dispatch and the busy-slot invariant -/

theorem busyCount_initWorkersL (n : Nat) : busyCount (initWorkersL n) = 0 := by
  rw [busyCount, List.length_eq_zero]
  rw [List.filter_eq_nil_iff]
  intro w hw
  rw [initWorkersL_not_busy n w hw]
  simp

theorem initWorkersL_all_free (n : Nat) :
    (initWorkersL n).all (fun w => !w.busy) = true := by
  rw [List.all_eq_true]
  intro w hw
  rw [initWorkersL_not_busy n w hw]
  rfl

theorem handleConvert_busyInv (s : AppState) (h : busyInv s) :
    busyInv (handleConvert s) := by
  rw [handleConvert]
  by_cases hidle : (s.files.filter (fun f => decide (f.status = Status.idle))).length = 0
  · simp only [hidle, if_true]
    exact h
  · simp only [hidle, if_false]
    exact pqStep_busyInv _ _ h

theorem handleWorkerMessage_busyInv (msg : ResultMsg) (s : AppState) (h : busyInv s) :
    busyInv (handleWorkerMessage msg s) := by
  cases hf : freeSlot s.workers msg.id with
  | some ws =>
    rw [handleWorkerMessage_eq_some msg s ws hf, processQueue]
    apply pqStep_busyInv
    show (busyCount ws : Int) = s.activeWorkers - 1
    have h1 := freeSlot_busyCount s.workers msg.id ws hf
    rw [busyInv] at h
    omega
  | none =>
    rw [handleWorkerMessage_eq_none msg s hf, processQueue]
    exact pqStep_busyInv _ _ h

theorem handleClear_busyInv (s : AppState) (n : Nat) : busyInv (handleClear s n) := by
  show (busyCount (initWorkersL n) : Int) = 0
  rw [busyCount_initWorkersL]
  rfl

/-- Claim C1 (corrected): when the Scheduler assigns a queued task to a
free Worker Slot it marks the slot busy with `currentTaskId` set and
dispatches the task, but it changes **no** Task Record: records enter the
single status `pending` at enqueue time and keep it while queued and
while running (the code has no `running` status). The count invariant the
code maintains is that the number of busy slots equals the
`activeWorkers` counter, and it is preserved by every coordinator
operation. -/
theorem scheduler_preserves_files_busy_inv (s : AppState) (msg : ResultMsg) (n : Nat)
    (hinv : busyInv s) :
    (processQueue s).files = s.files ∧
    busyInv (processQueue s) ∧ busyInv (handleConvert s) ∧
    busyInv (handleWorkerMessage msg s) ∧ busyInv (handleClear s n) :=
  ⟨pqStep_files _ s, pqStep_busyInv _ s hinv, handleConvert_busyInv s hinv,
    handleWorkerMessage_busyInv msg s hinv, handleClear_busyInv s n⟩

/-- Claim C1 witness: the invariant after a convert step on a concrete
two-file, one-worker state, through the theorem. -/
theorem scheduler_preserves_files_busy_inv_witness :
    busyInv (handleConvert (initState
      [⟨1, "a.ts", "a.js", "a.ts", "a.js", "x", none, Status.idle, none⟩,
       ⟨2, "b.ts", "b.js", "b.ts", "b.js", "y", none, Status.idle, none⟩] 1)) :=
  (scheduler_preserves_files_busy_inv
    (initState
      [⟨1, "a.ts", "a.js", "a.ts", "a.js", "x", none, Status.idle, none⟩,
       ⟨2, "b.ts", "b.js", "b.ts", "b.js", "y", none, Status.idle, none⟩] 1)
    ⟨1, WOutcome.success "o"⟩ 1 (by rw [busyInv]; rfl)).2.2.1

/-- Claim C1 counterexample: after `handleConvert` on two idle files with
a one-worker pool, one task is dispatched (its slot is busy holding id 1)
yet both records carry the same status `pending`; one slot is busy but no
status value is held by exactly one record, so "busy slots = records with
status running" fails for every possible reading of `running`. -/
theorem scheduler_no_running_status_cex :
    busyCount (handleConvert (initState
        [⟨1, "a.ts", "a.js", "a.ts", "a.js", "x", none, Status.idle, none⟩,
         ⟨2, "b.ts", "b.js", "b.ts", "b.js", "y", none, Status.idle, none⟩] 1)).workers = 1 ∧
    (handleConvert (initState
        [⟨1, "a.ts", "a.js", "a.ts", "a.js", "x", none, Status.idle, none⟩,
         ⟨2, "b.ts", "b.js", "b.ts", "b.js", "y", none, Status.idle, none⟩] 1)).workers =
      [⟨0, true, some 1⟩] ∧
    (handleConvert (initState
        [⟨1, "a.ts", "a.js", "a.ts", "a.js", "x", none, Status.idle, none⟩,
         ⟨2, "b.ts", "b.js", "b.ts", "b.js", "y", none, Status.idle, none⟩] 1)).files.map
      (fun f => f.status) = [Status.pending, Status.pending] ∧
    countStatus (handleConvert (initState
        [⟨1, "a.ts", "a.js", "a.ts", "a.js", "x", none, Status.idle, none⟩,
         ⟨2, "b.ts", "b.js", "b.ts", "b.js", "y", none, Status.idle, none⟩] 1)).files
      Status.idle = 0 ∧
    countStatus (handleConvert (initState
        [⟨1, "a.ts", "a.js", "a.ts", "a.js", "x", none, Status.idle, none⟩,
         ⟨2, "b.ts", "b.js", "b.ts", "b.js", "y", none, Status.idle, none⟩] 1)).files
      Status.pending = 2 ∧
    countStatus (handleConvert (initState
        [⟨1, "a.ts", "a.js", "a.ts", "a.js", "x", none, Status.idle, none⟩,
         ⟨2, "b.ts", "b.js", "b.ts", "b.js", "y", none, Status.idle, none⟩] 1)).files
      Status.complete = 0 := by decide

/-! ### Claim C2: duplicate result delivery -/

/-- Claim C2 (corrected): delivering the same completion result twice
leaves the Task Registry and the Worker Slots exactly as after one
delivery — the registry update is idempotent and no slot is re-freed —
but the `current` progress counter is incremented **again** on the
duplicate: the code increments it unconditionally on every message. -/
theorem duplicate_result_changes_only_current (s : AppState) (msg : ResultMsg)
    (h : freeSlot (handleWorkerMessage msg s).workers msg.id = none) :
    handleWorkerMessage msg (handleWorkerMessage msg s) =
      { handleWorkerMessage msg s with
        current := (handleWorkerMessage msg s).current + 1 } := by
  have hdone : pqDone (handleWorkerMessage msg s) := handleWorkerMessage_done msg s
  rw [handleWorkerMessage_eq_none msg (handleWorkerMessage msg s) h]
  have hfi : (handleWorkerMessage msg s).files.map (applyResult msg) =
      (handleWorkerMessage msg s).files := by
    rw [handleWorkerMessage_files, List.map_map]
    exact List.map_congr_left (fun f _ => applyResult_idem msg f)
  rw [hfi]
  calc
    processQueue
        { handleWorkerMessage msg s with
          files := (handleWorkerMessage msg s).files,
          current := (handleWorkerMessage msg s).current + 1 } =
        { pqStep (handleWorkerMessage msg s).queue.length (handleWorkerMessage msg s) with
          files := (handleWorkerMessage msg s).files,
          current := (handleWorkerMessage msg s).current + 1 } :=
      pqStep_set _ _ _ _
    _ = { handleWorkerMessage msg s with
          files := (handleWorkerMessage msg s).files,
          current := (handleWorkerMessage msg s).current + 1 } := by
      rw [show pqStep (handleWorkerMessage msg s).queue.length (handleWorkerMessage msg s) =
        handleWorkerMessage msg s from processQueue_of_done _ hdone]

/-- Claim C2 witness: a concrete duplicate delivery through the theorem. -/
theorem duplicate_result_witness :
    handleWorkerMessage ⟨1, WOutcome.success "out"⟩
        (handleWorkerMessage ⟨1, WOutcome.success "out"⟩
          ⟨[⟨1, "a.ts", "a.js", "a.ts", "a.js", "x", none, Status.pending, none⟩], [],
            [⟨0, true, some 1⟩], 0, 1, true, 1, []⟩) =
      { handleWorkerMessage ⟨1, WOutcome.success "out"⟩
          ⟨[⟨1, "a.ts", "a.js", "a.ts", "a.js", "x", none, Status.pending, none⟩], [],
            [⟨0, true, some 1⟩], 0, 1, true, 1, []⟩ with
        current := (handleWorkerMessage ⟨1, WOutcome.success "out"⟩
          ⟨[⟨1, "a.ts", "a.js", "a.ts", "a.js", "x", none, Status.pending, none⟩], [],
            [⟨0, true, some 1⟩], 0, 1, true, 1, []⟩).current + 1 } :=
  duplicate_result_changes_only_current
    ⟨[⟨1, "a.ts", "a.js", "a.ts", "a.js", "x", none, Status.pending, none⟩], [],
      [⟨0, true, some 1⟩], 0, 1, true, 1, []⟩
    ⟨1, WOutcome.success "out"⟩ (by decide)

/-- Claim C2 counterexample: a duplicate of an already-applied result is
**not** a no-op — it bumps the `current` counter from 1 to 2, so the
twice-delivered state differs from the once-delivered state. -/
theorem duplicate_result_not_idempotent_cex :
    (handleWorkerMessage ⟨1, WOutcome.success "out"⟩
        (handleWorkerMessage ⟨1, WOutcome.success "out"⟩
          ⟨[⟨1, "a.ts", "a.js", "a.ts", "a.js", "x", none, Status.pending, none⟩], [],
            [⟨0, true, some 1⟩], 0, 1, true, 1, []⟩)).current = 2 ∧
    (handleWorkerMessage ⟨1, WOutcome.success "out"⟩
        ⟨[⟨1, "a.ts", "a.js", "a.ts", "a.js", "x", none, Status.pending, none⟩], [],
          [⟨0, true, some 1⟩], 0, 1, true, 1, []⟩).current = 1 ∧
    handleWorkerMessage ⟨1, WOutcome.success "out"⟩
        (handleWorkerMessage ⟨1, WOutcome.success "out"⟩
          ⟨[⟨1, "a.ts", "a.js", "a.ts", "a.js", "x", none, Status.pending, none⟩], [],
            [⟨0, true, some 1⟩], 0, 1, true, 1, []⟩) ≠
      handleWorkerMessage ⟨1, WOutcome.success "out"⟩
        ⟨[⟨1, "a.ts", "a.js", "a.ts", "a.js", "x", none, Status.pending, none⟩], [],
          [⟨0, true, some 1⟩], 0, 1, true, 1, []⟩ := by decide

/-! ### Claim C3: stray and stale results -/

/-- Claim C3 (corrected): a result whose task id is held by no Worker
Slot is still applied to the matching Task Record and frees no slot (the
busy count cannot drop); but after a session reset a stale result does
**not** leave all coordinator state unchanged: the registry and the slots
are untouched while the `current` counter still increments by one. -/
theorem stray_result_applies_record_frees_no_slot (s : AppState) (msg : ResultMsg) (n : Nat)
    (h : freeSlot s.workers msg.id = none) :
    (handleWorkerMessage msg s).files = s.files.map (applyResult msg) ∧
    busyCount s.workers ≤ busyCount (handleWorkerMessage msg s).workers ∧
    handleWorkerMessage msg (handleClear s n) = { handleClear s n with current := 1 } := by
  refine ⟨handleWorkerMessage_files msg s, ?_, ?_⟩
  · rw [handleWorkerMessage_eq_none msg s h, processQueue]
    exact pqStep_busy_mono
      ({ s with files := s.files.map (applyResult msg), current := s.current + 1 } :
        AppState).queue.length
      { s with files := s.files.map (applyResult msg), current := s.current + 1 }
  · have hf2 : freeSlot (handleClear s n).workers msg.id = none :=
      freeSlot_initWorkersL n msg.id
    rw [handleWorkerMessage_eq_none msg (handleClear s n) hf2]
    rw [processQueue_of_done _ (Or.inl ⟨rfl, fun _ => rfl⟩)]
    rfl

/-- Claim C3 witness: a stray success for a task no slot holds, through
the theorem. -/
theorem stray_result_witness :
    (handleWorkerMessage ⟨5, WOutcome.success "s"⟩
        (initState [⟨5, "a.ts", "a.js", "a.ts", "a.js", "x", none, Status.pending, none⟩] 2)).files =
      (initState [⟨5, "a.ts", "a.js", "a.ts", "a.js", "x", none, Status.pending, none⟩] 2).files.map
        (applyResult ⟨5, WOutcome.success "s"⟩) :=
  (stray_result_applies_record_frees_no_slot
    (initState [⟨5, "a.ts", "a.js", "a.ts", "a.js", "x", none, Status.pending, none⟩] 2)
    ⟨5, WOutcome.success "s"⟩ 2 (by decide)).1

/-- Claim C3 counterexample: after a session reset, a stale result for an
id matching no record still mutates the coordinator state — `current`
goes from 0 to 1 — refuting "all coordinator state is left unchanged". -/
theorem stale_result_after_clear_cex :
    (handleWorkerMessage ⟨99, WOutcome.success "zzz"⟩
        (handleClear (initState [] 1) 2)).current = 1 ∧
    (handleClear (initState [] 1) 2).current = 0 ∧
    handleWorkerMessage ⟨99, WOutcome.success "zzz"⟩ (handleClear (initState [] 1) 2) ≠
      handleClear (initState [] 1) 2 := by decide

/-! ### Claim C8: FIFO dispatch -/

/-- Claim C8 (confirmed): with a pool of one worker and three tasks
enqueued in registry order (ids 1, 2, 3), the dispatch log after each
completion grows strictly in queue order: 1, then 2, then 3 — tasks are
popped from the queue head with no reordering, whatever the file names,
paths, contents and results are. -/
theorem fifo_dispatch_order (n1 n2 n3 p1 p2 p3 c1 c2 c3 r1 r2 : String) :
    (handleConvert (initState
        [⟨1, n1, n1, p1, p1, c1, none, Status.idle, none⟩,
         ⟨2, n2, n2, p2, p2, c2, none, Status.idle, none⟩,
         ⟨3, n3, n3, p3, p3, c3, none, Status.idle, none⟩] 1)).sent.map
      (fun x => x.2.id) = [1] ∧
    (handleWorkerMessage ⟨1, WOutcome.success r1⟩
        (handleConvert (initState
          [⟨1, n1, n1, p1, p1, c1, none, Status.idle, none⟩,
           ⟨2, n2, n2, p2, p2, c2, none, Status.idle, none⟩,
           ⟨3, n3, n3, p3, p3, c3, none, Status.idle, none⟩] 1))).sent.map
      (fun x => x.2.id) = [1, 2] ∧
    (handleWorkerMessage ⟨2, WOutcome.failure r2⟩
        (handleWorkerMessage ⟨1, WOutcome.success r1⟩
          (handleConvert (initState
            [⟨1, n1, n1, p1, p1, c1, none, Status.idle, none⟩,
             ⟨2, n2, n2, p2, p2, c2, none, Status.idle, none⟩,
             ⟨3, n3, n3, p3, p3, c3, none, Status.idle, none⟩] 1)))).sent.map
      (fun x => x.2.id) = [1, 2, 3] := by
  exact ⟨rfl, rfl, rfl⟩

/-! ### Claim C10: record removal -/

/-- Claim C10 (confirmed): `removeFile` deletes exactly the Task Records
with the given id and leaves the Dispatch Queue, Worker Slots and
progress counters untouched; concretely, removing a still-queued task
does not remove its queue entry, so it is still dispatched and its
completion still increments `current`. -/
theorem removeFile_frame (idr : Nat) (s : AppState) :
    (removeFile idr s).queue = s.queue ∧
    (removeFile idr s).workers = s.workers ∧
    (removeFile idr s).current = s.current ∧
    (removeFile idr s).total = s.total ∧
    (removeFile idr s).isProcessing = s.isProcessing ∧
    (removeFile idr s).activeWorkers = s.activeWorkers ∧
    (removeFile idr s).sent = s.sent ∧
    (∀ f, f ∈ (removeFile idr s).files ↔ f ∈ s.files ∧ f.id ≠ idr) ∧
    (removeFile 2 (handleConvert (initState
        [⟨1, "a.ts", "a.js", "a.ts", "a.js", "x", none, Status.idle, none⟩,
         ⟨2, "b.ts", "b.js", "b.ts", "b.js", "y", none, Status.idle, none⟩] 1))).queue =
      (handleConvert (initState
        [⟨1, "a.ts", "a.js", "a.ts", "a.js", "x", none, Status.idle, none⟩,
         ⟨2, "b.ts", "b.js", "b.ts", "b.js", "y", none, Status.idle, none⟩] 1)).queue ∧
    (handleWorkerMessage ⟨2, WOutcome.success "o2"⟩
        (handleWorkerMessage ⟨1, WOutcome.success "o1"⟩
          (removeFile 2 (handleConvert (initState
            [⟨1, "a.ts", "a.js", "a.ts", "a.js", "x", none, Status.idle, none⟩,
             ⟨2, "b.ts", "b.js", "b.ts", "b.js", "y", none, Status.idle, none⟩] 1))))).sent.map
      (fun x => x.2.id) = [1, 2] ∧
    (handleWorkerMessage ⟨2, WOutcome.success "o2"⟩
        (handleWorkerMessage ⟨1, WOutcome.success "o1"⟩
          (removeFile 2 (handleConvert (initState
            [⟨1, "a.ts", "a.js", "a.ts", "a.js", "x", none, Status.idle, none⟩,
             ⟨2, "b.ts", "b.js", "b.ts", "b.js", "y", none, Status.idle, none⟩] 1))))).current =
      2 := by
  refine ⟨rfl, rfl, rfl, rfl, rfl, rfl, rfl, ?_, by decide, by decide, by decide⟩
  intro f
  rw [removeFile]
  simp [List.mem_filter]

/-! ### Claims C4, C5, C9: file intake -/

/-- Claim C4 (corrected): File Intake creates a Task Record for an item if
and only if its name ends in one of the fixed source extensions
(.ts, .tsx, .jsx, .js) and its name does not **contain** the substring
`.d.ts` anywhere (the code tests `includes('.d.ts')`, not an
end-of-name check). -/
theorem intake_filter_characterization (items : List Item) (i : Item) :
    i ∈ filterValid items ↔
      i ∈ items ∧
        (".ts".data <:+ i.name.data ∨ ".tsx".data <:+ i.name.data ∨
          ".jsx".data <:+ i.name.data ∨ ".js".data <:+ i.name.data) ∧
        ¬∃ pre suf, i.name.data = pre ++ ".d.ts".data ++ suf := by
  rw [filterValid, List.mem_filter]
  have hv : validFile i.name = true ↔
      (".ts".data <:+ i.name.data ∨ ".tsx".data <:+ i.name.data ∨
        ".jsx".data <:+ i.name.data ∨ ".js".data <:+ i.name.data) ∧
      ¬∃ pre suf, i.name.data = pre ++ ".d.ts".data ++ suf := by
    rw [validFile, Bool.and_eq_true, Bool.not_eq_true']
    rw [matchesExt]
    simp only [Bool.or_eq_true, strEndsWith_iff, or_assoc]
    constructor
    · rintro ⟨hm, hi⟩
      refine ⟨hm, fun hc => ?_⟩
      rw [(strIncludes_iff i.name ".d.ts").mpr hc] at hi
      exact absurd hi (by simp)
    · rintro ⟨hm, hi⟩
      refine ⟨hm, ?_⟩
      cases hc : strIncludes i.name ".d.ts" with
      | false => rfl
      | true => exact absurd ((strIncludes_iff i.name ".d.ts").mp hc) hi
  rw [hv]

/-- Claim C4 witness: a concrete intake run through the characterization. -/
theorem intake_filter_witness :
    (⟨"app.tsx", "src/app.tsx", "x"⟩ : Item) ∈
      filterValid [⟨"app.tsx", "src/app.tsx", "x"⟩, ⟨"lib.d.ts", "src/lib.d.ts", "y"⟩] :=
  (intake_filter_characterization
    [⟨"app.tsx", "src/app.tsx", "x"⟩, ⟨"lib.d.ts", "src/lib.d.ts", "y"⟩]
    ⟨"app.tsx", "src/app.tsx", "x"⟩).mpr
    ⟨by simp, by decide, fun hc => absurd ((strIncludes_iff _ _).mpr hc) (by decide)⟩

/-- Claim C4 counterexample: `a.d.tsx` ends in the accepted extension
`.tsx` and does not end in `.d.ts`, yet intake rejects it, because the
code rejects any name that merely contains `.d.ts`. -/
theorem intake_dts_substring_cex :
    validFile "a.d.tsx" = false ∧ strEndsWith "a.d.tsx" ".tsx" = true ∧
      strEndsWith "a.d.tsx" ".d.ts" = false ∧
      filterValid [⟨"a.d.tsx", "a.d.tsx", "x"⟩] = [] := by decide

/-- Claim C9 (confirmed): an accepted item whose extension is already
`.js` is left unchanged by the remapping: `targetName = originalName`
and `targetPath = originalPath`. -/
theorem js_roundtrip_identity (name path : String) (h : strEndsWith name ".js" = true) :
    remap name path = (name, path) := by
  have h1 : ¬strEndsWith name ".ts" = true := fun hc =>
    absurd (endsWith_excl name ".js" ".ts" h hc) (by decide)
  have h2 : ¬strEndsWith name ".tsx" = true := fun hc =>
    absurd (endsWith_excl name ".js" ".tsx" h hc) (by decide)
  have h3 : ¬strEndsWith name ".jsx" = true := fun hc =>
    absurd (endsWith_excl name ".js" ".jsx" h hc) (by decide)
  rw [remap, if_neg (by simpa using h1), if_neg (by simpa using h2),
    if_neg (by simpa using h3)]

/-- Claim C9 witness. -/
theorem js_roundtrip_identity_witness :
    remap "util.js" "src/util.js" = ("util.js", "src/util.js") :=
  js_roundtrip_identity "util.js" "src/util.js" (by decide)

/-- Claim C5 (corrected): for an accepted item the target **path** is the
original path with the recognized extension at its end replaced by `.js`,
but the target **name** is the original name with the **first occurrence**
of the extension replaced (JS string `replace`); the two agree whenever
the extension occurs in the name only as its final suffix. -/
theorem remap_target_characterization (name path : String) :
    (strEndsWith name ".ts" = true → strEndsWith path ".ts" = true →
      (remap name path).2.data =
        path.data.take (path.data.length - ".ts".data.length) ++ ".js".data) ∧
    (strEndsWith name ".tsx" = true → strEndsWith path ".tsx" = true →
      (remap name path).2.data =
        path.data.take (path.data.length - ".tsx".data.length) ++ ".js".data) ∧
    (strEndsWith name ".jsx" = true → strEndsWith path ".jsx" = true →
      (remap name path).2.data =
        path.data.take (path.data.length - ".jsx".data.length) ++ ".js".data) ∧
    (strEndsWith name ".ts" = true → hasSubL ".ts".data name.data.dropLast = false →
      (remap name path).1.data =
        name.data.take (name.data.length - ".ts".data.length) ++ ".js".data) ∧
    (strEndsWith name ".tsx" = true → hasSubL ".tsx".data name.data.dropLast = false →
      (remap name path).1.data =
        name.data.take (name.data.length - ".tsx".data.length) ++ ".js".data) ∧
    (strEndsWith name ".jsx" = true → hasSubL ".jsx".data name.data.dropLast = false →
      (remap name path).1.data =
        name.data.take (name.data.length - ".jsx".data.length) ++ ".js".data) := by
  refine ⟨?_, ?_, ?_, ?_, ?_, ?_⟩
  · intro hn hp
    rw [remap, if_pos hn]
    exact strReplaceEnd_spec path ".ts" ".js" hp
  · intro hn hp
    have h1 : ¬strEndsWith name ".ts" = true := fun hc =>
      absurd (endsWith_excl name ".tsx" ".ts" hn hc) (by decide)
    rw [remap, if_neg (by simpa using h1), if_pos hn]
    exact strReplaceEnd_spec path ".tsx" ".js" hp
  · intro hn hp
    have h1 : ¬strEndsWith name ".ts" = true := fun hc =>
      absurd (endsWith_excl name ".jsx" ".ts" hn hc) (by decide)
    have h2 : ¬strEndsWith name ".tsx" = true := fun hc =>
      absurd (endsWith_excl name ".jsx" ".tsx" hn hc) (by decide)
    rw [remap, if_neg (by simpa using h1), if_neg (by simpa using h2), if_pos hn]
    exact strReplaceEnd_spec path ".jsx" ".js" hp
  · intro hn hu
    rw [remap, if_pos hn]
    exact strReplaceFirst_suffix_unique name ".ts" ".js" (by decide) hn hu
  · intro hn hu
    have h1 : ¬strEndsWith name ".ts" = true := fun hc =>
      absurd (endsWith_excl name ".tsx" ".ts" hn hc) (by decide)
    rw [remap, if_neg (by simpa using h1), if_pos hn]
    exact strReplaceFirst_suffix_unique name ".tsx" ".js" (by decide) hn hu
  · intro hn hu
    have h1 : ¬strEndsWith name ".ts" = true := fun hc =>
      absurd (endsWith_excl name ".jsx" ".ts" hn hc) (by decide)
    have h2 : ¬strEndsWith name ".tsx" = true := fun hc =>
      absurd (endsWith_excl name ".jsx" ".tsx" hn hc) (by decide)
    rw [remap, if_neg (by simpa using h1), if_neg (by simpa using h2), if_pos hn]
    exact strReplaceFirst_suffix_unique name ".jsx" ".js" (by decide) hn hu

/-- Claim C5 witness: concrete remapping through the characterization. -/
theorem remap_target_witness :
    (remap "app.tsx" "src/app.tsx").2.data =
      "src/app.tsx".data.take ("src/app.tsx".data.length - ".tsx".data.length) ++ ".js".data :=
  (remap_target_characterization "app.tsx" "src/app.tsx").2.1 (by decide) (by decide)

/-- Claim C5 counterexample: for the accepted name `a.ts.ts` the code
replaces the **first** occurrence of `.ts`, producing target name
`a.js.ts`, not the end-replacement `a.ts.js` stated by the claim (while
the target path is the end-replacement `a.ts.js`). -/
theorem remap_first_occurrence_cex :
    remap "a.ts.ts" "a.ts.ts" = ("a.js.ts", "a.ts.js") ∧
      (remap "a.ts.ts" "a.ts.ts").1 ≠ "a.ts.js" := by decide

/-! ### Claim C6: export -/

/-- Claim C6 (corrected): an archive entry is produced exactly for the
records whose `error` is not truthy and whose `outputText` is truthy
(non-null **and non-empty**) — the `status` field is not consulted; and
the export fails with the reported condition exactly when no record
qualifies. -/
theorem export_entries_characterization (files : List FileRec) :
    (∀ e, (∃ es, handleDownloadZip files = Except.ok es ∧ e ∈ es) ↔
      ∃ f, f ∈ files ∧ truthyStr f.error = false ∧ truthyStr f.content = true ∧
        e = (f.newPath, f.content.getD "")) ∧
    (handleDownloadZip files = Except.error "No valid files to zip" ↔
      ∀ f ∈ files, ¬(truthyStr f.error = false ∧ truthyStr f.content = true)) := by
  constructor
  · intro e
    constructor
    · rintro ⟨es, hok, hmem⟩
      rw [handleDownloadZip] at hok
      by_cases hz : zipEntries files = []
      · rw [if_pos hz] at hok
        cases hok
      · rw [if_neg hz] at hok
        have hes : es = zipEntries files := by
          cases hok
          rfl
        rw [hes] at hmem
        rw [zipEntries] at hmem
        rcases List.mem_map.mp hmem with ⟨f, hf, hfe⟩
        rcases List.mem_filter.mp hf with ⟨hfm, hfp⟩
        rcases Bool.and_eq_true_iff.mp hfp with ⟨hferr, hfcont⟩
        exact ⟨f, hfm, by simpa using hferr, hfcont, hfe.symm⟩
    · rintro ⟨f, hfm, hferr, hfcont, he⟩
      have hmem : e ∈ zipEntries files := by
        rw [zipEntries]
        exact List.mem_map.mpr ⟨f, List.mem_filter.mpr ⟨hfm, by simp [hferr, hfcont]⟩, he.symm⟩
      have hz : zipEntries files ≠ [] := by
        intro hcontra
        rw [hcontra] at hmem
        exact absurd hmem (by simp)
      exact ⟨zipEntries files, by rw [handleDownloadZip, if_neg hz], hmem⟩
  · rw [handleDownloadZip]
    by_cases hz : zipEntries files = []
    · rw [if_pos hz]
      simp only [true_iff]
      intro f hfm hc
      have hmem : (f.newPath, f.content.getD "") ∈ zipEntries files := by
        rw [zipEntries]
        exact List.mem_map.mpr ⟨f, List.mem_filter.mpr ⟨hfm, by simp [hc.1, hc.2]⟩, rfl⟩
      rw [hz] at hmem
      exact absurd hmem (by simp)
    · rw [if_neg hz]
      simp only [reduceCtorEq, false_iff]
      intro hall
      apply hz
      rw [zipEntries]
      rw [List.map_eq_nil_iff, List.filter_eq_nil_iff]
      intro f hfm
      intro hc
      rcases Bool.and_eq_true_iff.mp hc with ⟨h1, h2⟩
      exact hall f hfm ⟨by simpa using h1, h2⟩

/-- Claim C6 witness: concrete export of one successful and one failed
record through the characterization. -/
theorem export_entries_witness :
    (∃ es, handleDownloadZip
        [⟨1, "a.ts", "a.js", "a.ts", "a.js", "x", some "out", Status.complete, none⟩,
         ⟨2, "b.ts", "b.js", "b.ts", "b.js", "y", none, Status.complete, some "boom"⟩] =
      Except.ok es ∧ ("a.js", "out") ∈ es) :=
  ((export_entries_characterization _).1 ("a.js", "out")).mpr
    ⟨⟨1, "a.ts", "a.js", "a.ts", "a.js", "x", some "out", Status.complete, none⟩,
      by simp, by decide, by decide, by decide⟩

/-- Claim C6 counterexample: a record that is `complete` with `error =
null` but empty `outputText` is **excluded** (JS truthiness), so with it
as the only record the export fails even though a completed error-free
record exists — refuting "entries are exactly the records with
`status = complete` and `error = null`". -/
theorem export_complete_empty_output_cex :
    handleDownloadZip [⟨7, "a.ts", "a.js", "a.ts", "a.js", "", some "", Status.complete, none⟩] =
        Except.error "No valid files to zip" ∧
      (⟨7, "a.ts", "a.js", "a.ts", "a.js", "", some "", Status.complete, none⟩ : FileRec).status =
        Status.complete ∧
      (⟨7, "a.ts", "a.js", "a.ts", "a.js", "", some "", Status.complete, none⟩ : FileRec).error =
        none := ⟨rfl, rfl, rfl⟩

end TranspileBox
